import Mathlib

/-!
Verification of the documentation content pipeline of the taffy-layout-docs
repository: slug derivation, table-of-contents extraction, include-directive
resolution, relative-link rewriting, sidebar construction and the locale
fallback logic of the docs pages.

Modelling conventions:
* JavaScript strings are modelled as lists of characters (`Str`).  String
  literals are injected with `str`.
* The filesystem is an explicit association list from absolute paths to file
  contents (`FS`).  `fs.readFileSync` throwing is modelled by `Except Unit`.
* JavaScript numbers that the pipeline uses as sort keys are modelled as `Int`
  (every order value in the repository is an integer literal or the integer
  sentinel 9999).
* External npm libraries (node `path`, `gray-matter`, `github-slugger`) are
  not part of the repository; they are modelled from their documented
  behaviour on the inputs this pipeline feeds them, each with a comment
  stating the scope of the model.
-/

namespace TaffyDocs

/-- Strings of the JavaScript source, modelled as lists of characters. -/
abbrev Str := List Char

/-- Injection of Lean string literals into the model. -/
def str (s : String) : Str := s.data

/-- Character class of the JavaScript regex class backslash-s, restricted to
the ASCII whitespace the documentation content uses. -/
def isWsChar (c : Char) : Bool :=
  c = ' ' || c = '\t' || c = '\n' || c = '\r' || c = Char.ofNat 11 || c = Char.ofNat 12

/-- ASCII letter or digit. -/
def isAlphanumChar (c : Char) : Bool :=
  ('a' ≤ c && c ≤ 'z') || ('A' ≤ c && c ≤ 'Z') || ('0' ≤ c && c ≤ '9')

/-- Character class of the JavaScript regex class backslash-w. -/
def isWordChar (c : Char) : Bool :=
  isAlphanumChar c || c = '_'

/-- Drops a leading occurrence of `p` from `s`, or fails. -/
def dropPre (p s : Str) : Option Str :=
  match p, s with
  | [], s => some s
  | _ :: _, [] => none
  | a :: p, b :: s => if a = b then dropPre p s else none

/-- Splits a character list on a separator character (keeping empty pieces,
like the JavaScript split method). -/
def splitOnChar (sep : Char) : Str → List Str
  | [] => [[]]
  | c :: rest =>
    let parts := splitOnChar sep rest
    if c = sep then [] :: parts
    else
      match parts with
      | [] => [[c]]
      | p :: ps => (c :: p) :: ps

/-- Index of the first occurrence of `pat` as a contiguous sublist of `s`. -/
def firstIdx (s pat : Str) : Option Nat :=
  match s with
  | [] => if pat = [] then some 0 else none
  | _ :: rest =>
    if pat.isPrefixOf s then some 0
    else (firstIdx rest pat).map (· + 1)

/-- Models GetSubstitution of the JavaScript replace method for a
plain-string search pattern: in the replacement string, dollar-dollar
yields a dollar, dollar-ampersand the matched substring, dollar-backquote
the portion of the subject before the match and dollar-quote the portion
after it; a dollar followed by anything else — including a digit, since a
string pattern has no capture groups — stays literal.  The characters
backquote and quote are written by code point (96 and 39). -/
def getSubstitution (matched before after : Str) : Str → Str
  | [] => []
  | c :: rest =>
    if c = '$' then
      match rest with
      | [] => [c]
      | c2 :: rest2 =>
        if c2 = '$' then '$' :: getSubstitution matched before after rest2
        else if c2 = '&' then matched ++ getSubstitution matched before after rest2
        else if c2 = Char.ofNat 96 then before ++ getSubstitution matched before after rest2
        else if c2 = Char.ofNat 39 then after ++ getSubstitution matched before after rest2
        else c :: getSubstitution matched before after (c2 :: rest2)
    else c :: getSubstitution matched before after rest

/-- Absence of every dollar pattern the replace method expands: no dollar
directly followed by a dollar, an ampersand, a backquote or a quote. -/
def dollarFree : Str → Bool
  | [] => true
  | c :: rest =>
    if c = '$' then
      match rest with
      | [] => true
      | c2 :: rest2 =>
        if c2 = '$' || c2 = '&' || c2 = Char.ofNat 96 || c2 = Char.ofNat 39 then false
        else dollarFree (c2 :: rest2)
    else dollarFree rest

/-- Replacement of the first occurrence of `pat` by `rep`, the semantics of
the JavaScript replace method with a plain-string pattern and a string
replacement: the replacement text is processed through GetSubstitution, so
dollar patterns in it are expanded rather than inserted literally. -/
def replaceFirst (s pat rep : Str) : Str :=
  match firstIdx s pat with
  | none => s
  | some i =>
    s.take i ++ getSubstitution pat (s.take i) (s.drop (i + pat.length)) rep ++
      s.drop (i + pat.length)

/-- Fuel-indexed scan of the global replacement; every step consumes at
least one character, so fuel equal to the input length suffices. -/
def replaceAllAux (pat rep : Str) : Nat → Str → Str
  | _, [] => []
  | 0, s => s
  | fuel + 1, c :: rest =>
    if pat.isPrefixOf (c :: rest) then
      rep ++ replaceAllAux pat rep fuel ((c :: rest).drop pat.length)
    else
      c :: replaceAllAux pat rep fuel rest

/-- Replacement of every (non-overlapping, left-to-right) occurrence of `pat`
by `rep`; replacements are not rescanned, matching a global regex replace on
a literal pattern. -/
def replaceAllStr (s pat rep : Str) : Str :=
  if pat = [] then s else replaceAllAux pat rep s.length s

/-- Leading- and trailing-whitespace removal, the JavaScript trim method on
ASCII content. -/
def trimStr (s : Str) : Str :=
  ((s.dropWhile (isWsChar ·)).reverse.dropWhile (isWsChar ·)).reverse

/-- Lowercasing of every character (the toLowerCase method on ASCII input;
non-ASCII characters are left unchanged by the model as by `Char.toLower`). -/
def toLowerStr (s : Str) : Str := s.map Char.toLower

/-- Concatenation of segments with a separator character, the join method. -/
def joinSegs (sep : Char) : List Str → Str
  | [] => []
  | [s] => s
  | s :: rest => s ++ sep :: joinSegs sep rest

/-! ## Model of the node `path` module (posix flavour)

The site runs its content pipeline over posix-style absolute paths.  The
functions below model `path.posix` (and the platform `path`, identical on the
build platform) on such inputs. -/

/-- Models path.posix.dirname for inputs that contain a slash: everything up
to (excluding) the last slash, with the root directory returned as a single
slash.  Inputs without a slash (where node would return a dot) do not occur
in this pipeline, which only passes absolute paths. -/
def posixDirname (p : Str) : Str :=
  let pre := (p.reverse.dropWhile (· ≠ '/')).reverse
  match pre with
  | [] => str "/"
  | ['/'] => str "/"
  | _ => pre.dropLast

/-- Stack step of posix path normalization for absolute paths: a dot segment
is dropped, a dot-dot segment pops (and is discarded at the root, as node
does for absolute paths), any other segment is pushed. -/
def normStack (stack : List Str) : List Str → List Str
  | [] => stack.reverse
  | s :: rest =>
    if s = str "." then normStack stack rest
    else if s = str ".." then normStack (stack.drop 1) rest
    else normStack (s :: stack) rest

/-- Models path.posix.normalize on absolute paths without a meaningful
trailing slash: resolves dot and dot-dot segments and collapses repeated
slashes, always returning a path with a leading slash. -/
def posixNormalize (p : Str) : Str :=
  let segs := (splitOnChar '/' p).filter (· ≠ [])
  let out := normStack [] segs
  '/' :: joinSegs '/' out

/-- Models path.join / path.posix.join for the two-argument calls of this
pipeline, whose pieces are already normalized: the pieces are joined with a
slash, an empty piece being ignored. -/
def pathJoin (a b : Str) : Str :=
  if a = [] then b
  else if b = [] then a
  else a ++ '/' :: b

/-- Models path.resolve / path.posix.resolve for the calls of this pipeline,
where the first argument is an absolute directory: a relative second argument
is joined onto it and the result is normalized; an absolute second argument
wins. -/
def pathResolve (dir p : Str) : Str :=
  if p.head? = some '/' then posixNormalize p
  else posixNormalize (dir ++ '/' :: p)

/-- Models path.basename on posix paths: the part after the last slash. -/
def basenameOf (p : Str) : Str :=
  p.reverse.takeWhile (· ≠ '/') |>.reverse

/-- Models path.relative(root, filePath) for the only case the pipeline uses
it in: filePath lies under root, so the result is the part of filePath after
the root directory and its separator. -/
def pathRelativeModel (root fp : Str) : Str :=
  match dropPre (root ++ ['/']) fp with
  | some rest => rest
  | none => fp

/-! ## Locales (src/lib/locales.ts) and constants (src/lib/constants.ts) -/

/-- Supported locale keys (LOCALE_KEYS in src/lib/locales.ts). -/
inductive Locale where
  | en
  | zh
  | ja
deriving DecidableEq, Repr

/-- DEFAULT_LOCALE in src/lib/locales.ts. -/
def DEFAULT_LOCALE : Locale := .en

/-- Content directory of a locale (localeDir in src/lib/locales.ts). -/
def localeDir : Locale → Str
  | .en => str "docs"
  | .zh => str "docs/i18n/zh-CN"
  | .ja => str "docs/i18n/ja-JP"

/-- Locale base path for routing (localeBasePath in src/lib/locales.ts):
empty for the default locale, otherwise a locale-prefixed path. -/
def localeBasePath (locale : Locale) : Str :=
  if locale = DEFAULT_LOCALE then []
  else '/' :: (match locale with | .en => str "en" | .zh => str "zh" | .ja => str "ja")

/-- Parsing of a route locale segment (isLocale in src/lib/locales.ts, as a
partial map into the locale type). -/
def isLocaleOf (s : Str) : Option Locale :=
  if s = str "en" then some .en
  else if s = str "zh" then some .zh
  else if s = str "ja" then some .ja
  else none

/-- DEFAULT_ORDER in src/lib/constants.ts. -/
def DEFAULT_ORDER : Int := 9999

/-- Model of process.cwd(): a fixed absolute build directory. -/
def processCwd : Str := str "/build"

/-- Documentation root of a locale (docsRoot in docs.ts):
path.resolve(process.cwd(), "taffy-layout", localeDir(locale)). -/
def docsRoot (locale : Locale) : Str :=
  pathResolve (pathJoin processCwd (str "taffy-layout")) (localeDir locale)

/-! ## Slug derivation (slugFromFile in docs.ts) -/

/-- Stripping of a trailing Markdown extension, the regex that removes a
final dot-md or dot-mdx case-insensitively. -/
def stripMdExt (s : Str) : Str :=
  if (str ".mdx").isSuffixOf (toLowerStr s) then s.take (s.length - 4)
  else if (str ".md").isSuffixOf (toLowerStr s) then s.take (s.length - 3)
  else s

/-- Path segments of a file before the final index-collapsing step of
slugFromFile: the root-relative path with backslashes normalized, the
Markdown extension stripped, split on slashes with empty segments dropped. -/
def rawSlugParts (root filePath : Str) : List Str :=
  let rel := (pathRelativeModel root filePath).map (fun c => if c = '\\' then '/' else c)
  let withoutExt := stripMdExt rel
  (splitOnChar '/' withoutExt).filter (· ≠ [])

/-- slugFromFile in docs.ts: root-relative path split into segments, with a
final segment that is literally "index" dropped. -/
def slugFromFile (root filePath : Str) : List Str :=
  let parts := rawSlugParts root filePath
  if parts.getLast? = some (str "index") then parts.dropLast else parts

/-! ## Titles (titleFromSlug, unescapeTitle, extractTitle in docs.ts) -/

/-- Capitalization step of titleFromSlug, the regex that uppercases every
word character standing at a word boundary. -/
def capitalizeWords : Bool → Str → Str
  | _, [] => []
  | boundary, c :: rest =>
    (if boundary && isWordChar c then c.toUpper else c) :: capitalizeWords (!isWordChar c) rest

/-- titleFromSlug in docs.ts: last slug segment (or "Home" for an empty
slug), hyphens and underscores turned into spaces, word-initial characters
uppercased. -/
def titleFromSlug (slug : List Str) : Str :=
  let fallback := match slug.getLast? with
    | some s => s
    | none => str "Home"
  capitalizeWords true (fallback.map (fun c => if c = '-' || c = '_' then ' ' else c))

/-- unescapeTitle in docs.ts: undoes backslash escapes of angle brackets and
square brackets and a small set of HTML entities, in the source's order. -/
def unescapeTitle (value : Str) : Str :=
  let v := replaceAllStr value (str "\\<") (str "<")
  let v := replaceAllStr v (str "\\>") (str ">")
  let v := replaceAllStr v (str "\\[") (str "[")
  let v := replaceAllStr v (str "\\]") (str "]")
  let v := replaceAllStr v (str "&lt;") (str "<")
  let v := replaceAllStr v (str "&gt;") (str ">")
  replaceAllStr v (str "&amp;") (str "&")

/-- Splitting of a document body into lines at newline or carriage-return
plus newline, the split on the regex backslash-r-question-backslash-n. -/
def splitLinesJS : Str → List Str :=
  go []
where
  /-- Accumulates the current line (reversed) while scanning. -/
  go (cur : Str) : Str → List Str
    | [] => [cur.reverse]
    | '\r' :: '\n' :: rest => cur.reverse :: go [] rest
    | '\n' :: rest => cur.reverse :: go [] rest
    | c :: rest => go (c :: cur) rest

/-- Matching of one line against the heading regex of extractToc, the
anchored pattern of two-or-three hashes, then whitespace, then text.  The
result is the heading level together with the cleaned heading text (trailing
whitespace-hash removed, trimmed) before entity unescaping.  The
whitespace-then-text part follows the regex backtracking: the greedy
whitespace run yields its last character to the text group when nothing else
is left. -/
def lineHeadingCore (line : Str) : Option (Nat × Str) :=
  let hashes := line.takeWhile (· = '#')
  let rest := line.dropWhile (· = '#')
  let k := hashes.length
  if k = 2 || k = 3 then
    let w := rest.takeWhile (isWsChar ·)
    let body := rest.dropWhile (isWsChar ·)
    if w = [] then none
    else if body ≠ [] then some (k, body)
    else if 2 ≤ w.length then some (k, [w.getLast!])
    else none
  else none

/-- Removal of a trailing whitespace-run-then-hash, the replace on the
regex of whitespace-plus-hash anchored at the end. -/
def stripTrailingHash (g : Str) : Str :=
  match g.reverse with
  | '#' :: r => if (r.takeWhile (isWsChar ·)) ≠ [] then (r.dropWhile (isWsChar ·)).reverse else g
  | _ => g

/-- Heading matcher of extractToc: level and fully cleaned, unescaped text of
a level-2 or level-3 ATX heading line, or failure. -/
def lineHeading (line : Str) : Option (Nat × Str) :=
  (lineHeadingCore line).map fun p =>
    (p.1, unescapeTitle (trimStr (stripTrailingHash p.2)))

/-! ## Model of the external github-slugger library

Scope of the model: ASCII heading text.  The base slug lowercases, trims,
drops characters that are neither alphanumeric nor space, hyphen or
underscore, and turns spaces into hyphens.  The stateful slugger keeps an
occurrence table and suffixes a dash and a counter while the candidate id is
already taken, exactly as the library's slug method does. -/

/-- Base slug of a heading text (the stateless part of github-slugger). -/
def baseSlug (s : Str) : Str :=
  let t := trimStr (toLowerStr s)
  (t.filter (fun c => isAlphanumChar c || c = ' ' || c = '-' || c = '_')).map
    (fun c => if c = ' ' then '-' else c)

/-- Lookup in the slugger occurrence table. -/
def occLookup (occ : List (Str × Nat)) (k : Str) : Option Nat :=
  (occ.find? (fun e => e.1 = k)).map (·.2)

/-- Update of the slugger occurrence table. -/
def occSet (occ : List (Str × Nat)) (k : Str) (v : Nat) : List (Str × Nat) :=
  match occ with
  | [] => [(k, v)]
  | e :: rest => if e.1 = k then (k, v) :: rest else e :: occSet rest k v

/-- Decimal digits of a natural number. -/
def natToStr (n : Nat) : Str := (toString n).data

/-- Collision loop of the slugger's slug method: while the candidate id is
in the occurrence table, bump the counter of the original slug and retry with
a dash-counter suffix.  The fuel of one more than the table size bounds the
possible collisions (all candidates are distinct). -/
def slugLoop (original : Str) : Nat → List (Str × Nat) → Str → Str × List (Str × Nat)
  | 0, occ, result => (result, occSet occ result 0)
  | fuel + 1, occ, result =>
    match occLookup occ result with
    | none => (result, occSet occ result 0)
    | some _ =>
      let n := (occLookup occ original).getD 0 + 1
      let occ' := occSet occ original n
      slugLoop original fuel occ' (original ++ '-' :: natToStr n)

/-- Stateful slug method of a github-slugger instance. -/
def sluggerSlug (occ : List (Str × Nat)) (value : Str) : Str × List (Str × Nat) :=
  let original := baseSlug value
  slugLoop original (occ.length + 1) occ original

/-! ## Table-of-contents extraction (extractToc in docs.ts) -/

/-- Table-of-contents entry (TocItem in docs.ts). -/
structure TocItem where
  id : Str
  text : Str
  level : Nat
deriving DecidableEq, Repr

/-- Fold step of extractToc over one line: a matching heading line appends
one item whose id comes from the per-document slugger state. -/
def tocStep (acc : List TocItem × List (Str × Nat)) (line : Str) :
    List TocItem × List (Str × Nat) :=
  match lineHeading line with
  | none => acc
  | some p =>
    let r := sluggerSlug acc.2 p.2
    (acc.1 ++ [⟨r.1, p.2, p.1⟩], r.2)

/-- extractToc in docs.ts: scans the body line by line with a fresh slugger,
collecting one item per line that matches the level-2/3 heading pattern. -/
def extractToc (content : Str) : List TocItem :=
  ((splitLinesJS content).foldl tocStep ([], [])).1

/-- Matching of one line against the title regex of extractTitle, the
multiline pattern of one hash, whitespace, then text; the matched group is
trimmed as the caller does. -/
def lineTitle (line : Str) : Option Str :=
  match line with
  | '#' :: rest =>
    let w := rest.takeWhile (isWsChar ·)
    let body := rest.dropWhile (isWsChar ·)
    if w = [] then none
    else if body ≠ [] then some (trimStr body)
    else if 2 ≤ w.length then some []
    else none
  | _ => none

/-- extractTitle in docs.ts: trimmed text of the first level-1 ATX heading
line of the content, if any. -/
def extractTitle (content : Str) : Option Str :=
  ((splitLinesJS content).filterMap lineTitle).head?

/-! ## Link rewriter (src/features/docs/lib/remark-links.ts) -/

/-- isExternal in remark-links.ts: true for URLs starting with an http or
https scheme, mailto, tel, a hash fragment or a leading slash. -/
def isExternal (url : Str) : Bool :=
  (str "http://").isPrefixOf url ||
  (str "https://").isPrefixOf url ||
  (str "mailto:").isPrefixOf url ||
  (str "tel:").isPrefixOf url ||
  (str "#").isPrefixOf url ||
  (str "/").isPrefixOf url

/-- Tail of the rewriter after resolution: strips a trailing Markdown
extension, collapses a trailing slash-index, drops the leading slash and
prefixes the base path (or returns the base path itself, or the root, for an
empty remainder). -/
def finishUrl (basePath resolved : Str) : Str :=
  let clean := stripMdExt resolved
  let clean := if (str "/index").isSuffixOf clean then clean.take (clean.length - 6) else clean
  let suffix := if clean.head? = some '/' then clean.drop 1 else clean
  if suffix ≠ [] then basePath ++ '/' :: suffix
  else if basePath ≠ [] then basePath
  else str "/"

/-- Current directory of the document inside the rewriter: the document's
own slug path when it is an index page, else the parent of that path. -/
def currentDirOf (slug : List Str) (isIndex : Bool) : Str :=
  let docPath := '/' :: joinSegs '/' slug
  if isIndex then docPath else posixDirname docPath

/-- Per-URL action of remarkRewriteLinks: empty and external URLs pass
through unchanged, any other URL is joined onto the current directory,
normalized (the join normalizes and the source normalizes once more) and
finished with extension stripping, index collapsing and base-path
prefixing. -/
def rewriteUrl (basePath : Str) (slug : List Str) (isIndex : Bool) (url : Str) : Str :=
  if url = [] then url
  else if isExternal url then url
  else
    let currentDir := currentDirOf slug isIndex
    let resolved := posixNormalize (posixNormalize (currentDir ++ '/' :: url))
    finishUrl basePath resolved

/-- Markdown AST node as the rewriter sees it: a type tag, an optional url
and children. -/
inductive MdNode where
  | node (ty : Str) (url : Option Str) (children : List MdNode)

/-- remarkRewriteLinks in remark-links.ts: visits every node of the tree and
rewrites the url of every link node through the per-URL action. -/
def remarkRewriteLinks (basePath : Str) (slug : List Str) (isIndex : Bool) :
    MdNode → MdNode
  | .node ty url children =>
    let url' := if ty = str "link" then url.map (rewriteUrl basePath slug isIndex) else url
    .node ty url' (children.attach.map (fun c => remarkRewriteLinks basePath slug isIndex c.1))
decreasing_by
  have := List.sizeOf_lt_of_mem c.2
  simp only [MdNode.node.sizeOf_spec]
  omega

/-! ## Filesystem model -/

/-- Filesystem as an association list from absolute paths to raw file
contents. -/
structure FS where
  files : List (Str × Str)

/-- Successful synchronous read: the content when the path is present. -/
def FS.readF (fs : FS) (p : Str) : Option Str :=
  (fs.files.find? (fun e => e.1 = p)).map (·.2)

/-- existsSync of the model. -/
def FS.existsF (fs : FS) (p : Str) : Bool :=
  (fs.files.find? (fun e => e.1 = p)).isSome

/-! ## Include resolver (processIncludeDirectives in docs.ts) -/

/-- Matching of the include-directive regex at the start of `s`.  Scope of
the model: directives whose path part contains no line break and stands
before the first arrow-close of the comment, the shape the repository's
regex of comment-open, whitespace, INCLUDE, whitespace, lazy path,
whitespace, comment-close matches.  The result is the length of the full
match and the trimmed path group. -/
def matchIncludeAt (s : Str) : Option (Nat × Str) :=
  match dropPre (str "<!--") s with
  | none => none
  | some s1 =>
    let ws1 := s1.takeWhile (isWsChar ·)
    let s2 := s1.dropWhile (isWsChar ·)
    match dropPre (str "INCLUDE") s2 with
    | none => none
    | some s3 =>
      if s3.takeWhile (isWsChar ·) = [] then none
      else
        match firstIdx s3 (str "-->") with
        | none => none
        | some j =>
          let t := s3.take j
          let core := trimStr t
          if core = [] then none
          else if core.any (fun c => c = '\n' || c = '\r') then none
          else some (4 + ws1.length + 7 + j + 3, core)

/-- Fuel-indexed scan for directive matches; a match always has positive
length, so every step consumes at least one character and fuel equal to the
input length suffices. -/
def findIncludesAux : Nat → Str → List (Str × Str)
  | _, [] => []
  | 0, _ => []
  | fuel + 1, c :: rest =>
    match matchIncludeAt (c :: rest) with
    | some (len, p) => ((c :: rest).take len, p) :: findIncludesAux fuel (rest.drop (len - 1))
    | none => findIncludesAux fuel rest

/-- Left-to-right scan for all non-overlapping directive matches of the
include regex, as the repeated exec loop over the original content produces
them: the full matched text paired with the trimmed path. -/
def findIncludes (s : Str) : List (Str × Str) := findIncludesAux s.length s

/-- Fold step of processIncludeDirectives for one directive match: resolve
the path against the including file's directory; on a successful read,
replace the first occurrence of the matched text in the accumulated result;
on failure the catch block only warns and the result is unchanged. -/
def includeStep (fs : FS) (currentFilePath : Str) (result : Str) (m : Str × Str) : Str :=
  let resolvedPath := pathResolve (posixDirname currentFilePath) m.2
  match fs.readF resolvedPath with
  | some included => replaceFirst result m.1 included
  | none => result

/-- processIncludeDirectives in docs.ts: every directive match found in the
original content is processed in order against the accumulated result. -/
def processIncludeDirectives (fs : FS) (content : Str) (currentFilePath : Str) : Str :=
  (findIncludes content).foldl (includeStep fs currentFilePath) content

/-! ## Frontmatter (FrontMatterData in docs.ts, gray-matter modelled) -/

/-- Recognized frontmatter keys of FrontMatterData in docs.ts.  Unrecognized
keys are passed through opaquely by the site and play no role in the claims,
so the model keeps only the recognized ones. -/
structure FrontMatterData where
  title : Option Str := none
  sidebar_label : Option Str := none
  sidebar_position : Option Int := none
deriving DecidableEq, Repr

/-- Signed-decimal integer parser for a frontmatter scalar. -/
def parseIntStr (s : Str) : Option Int :=
  match s with
  | '-' :: rest =>
    if rest ≠ [] && rest.all (·.isDigit) then
      some (-(rest.foldl (fun n c => n * 10 + (c.toNat - 48)) 0 : Nat))
    else none
  | _ =>
    if s ≠ [] && s.all (·.isDigit) then
      some ((s.foldl (fun n c => n * 10 + (c.toNat - 48)) 0 : Nat))
    else none

/-- Scalar value of a frontmatter line: text after the colon, trimmed, with
one level of surrounding double quotes removed. -/
def fmScalar (s : Str) : Str :=
  let v := trimStr s
  match v with
  | '"' :: rest => if rest.getLast? = some '"' then rest.dropLast else v
  | _ => v

/-- Fold of simple key-colon-value frontmatter lines into the recognized
fields. -/
def parseFMLines (lines : List Str) : FrontMatterData :=
  lines.foldl
    (fun d line =>
      match firstIdx line (str ":") with
      | none => d
      | some i =>
        let key := trimStr (line.take i)
        let value := line.drop (i + 1)
        if key = str "title" then { d with title := some (fmScalar value) }
        else if key = str "sidebar_label" then { d with sidebar_label := some (fmScalar value) }
        else if key = str "sidebar_position" then
          { d with sidebar_position := parseIntStr (fmScalar value) }
        else d)
    {}

/-- Splits at the first occurrence of `pat`, returning the parts before and
after the occurrence. -/
def splitOnFirst (s pat : Str) : Option (Str × Str) :=
  match firstIdx s pat with
  | none => none
  | some i => some (s.take i, s.drop (i + pat.length))

/-- Models the external gray-matter parser on the content shapes of this
repository: a frontmatter block opened by a dash-dash-dash line at the very
start and closed by another one parses its simple key-colon-value scalar
lines, everything after the closing line being the content; without such a
block the data is empty and the content is the whole source. -/
def matter (source : Str) : FrontMatterData × Str :=
  match dropPre (str "---\n") source with
  | none => ({}, source)
  | some rest =>
    match splitOnFirst rest (str "\n---\n") with
    | some (fm, body) => (parseFMLines (splitLinesJS fm), body)
    | none =>
      if (str "\n---").isSuffixOf rest then
        (parseFMLines (splitLinesJS (rest.take (rest.length - 4))), [])
      else ({}, source)

/-! ## Document retrieval (resolveDocPath, getDoc in docs.ts) -/

/-- Complete documentation page data (DocData in docs.ts). -/
structure DocData where
  title : Str
  slug : List Str
  content : Str
  data : FrontMatterData
  toc : List TocItem
  isIndex : Bool
deriving DecidableEq, Repr

/-- Decidable equality of results, for evaluating concrete document
lookups. -/
instance exceptDecEq {ε α : Type} [DecidableEq ε] [DecidableEq α] :
    DecidableEq (Except ε α)
  | .error e, .error f =>
    if h : e = f then .isTrue (by rw [h]) else .isFalse (fun hh => h (Except.error.inj hh))
  | .error _, .ok _ => .isFalse (fun h => Except.noConfusion h)
  | .ok _, .error _ => .isFalse (fun h => Except.noConfusion h)
  | .ok a, .ok b =>
    if h : a = b then .isTrue (by rw [h]) else .isFalse (fun hh => h (Except.ok.inj hh))

/-- resolveDocPath in docs.ts: first existing candidate among the
directory-index and the plain Markdown filenames for the slug under the
locale root. -/
def resolveDocPath (fs : FS) (locale : Locale) (slug : List Str) : Option Str :=
  let root := docsRoot locale
  let slugPath := joinSegs '/' slug
  let base := pathJoin root slugPath
  let candidates := [pathJoin base (str "index.md"), pathJoin base (str "index.mdx"),
    base ++ str ".md", base ++ str ".mdx"]
  candidates.find? (fun c => fs.existsF c)

/-- getLocaleWarning in docs.ts: locale-specific changelog disclaimer, absent
for the default locale. -/
def getLocaleWarning (locale : Locale) : Option Str :=
  if locale = DEFAULT_LOCALE then none
  else
    match locale with
    | .en => none
    | .zh => some (str "> **注意：** Changelog 仅提供英文版本以保持准确性和一致性。")
    | .ja => some (str "> **注意：** Changelog は英語版のみ提供されています。")

/-- Fixed path of the repository changelog read by the changelog slug:
path.resolve(process.cwd(), "taffy-layout", "CHANGELOG.md"). -/
def changelogFilePath : Str :=
  pathResolve (pathJoin processCwd (str "taffy-layout")) (str "CHANGELOG.md")

/-- Title-resolution chain of getDoc: frontmatter title, else sidebar label,
else first level-1 heading, else humanized slug; empty strings are falsy in
the source's or-chain. -/
def resolveTitle (data : FrontMatterData) (content : Str) (slug : List Str) : Str :=
  let raw :=
    ((data.title.filter (· ≠ [])).orElse
      (fun _ => (data.sidebar_label.filter (· ≠ [])).orElse
        (fun _ => (extractTitle content).filter (· ≠ [])))).getD (titleFromSlug slug)
  unescapeTitle raw

/-- getDoc in docs.ts (the per-request document pipeline).  A throwing
readFileSync is modelled by the error result; the explicit no-document
result of an unresolved slug is the ok-none result.  The changelog slug
bypasses file resolution, reads the repository changelog, prepends the
locale disclaimer outside the default locale and skips include
processing. -/
def getDoc (fs : FS) (locale : Locale) (slug : List Str) : Except Unit (Option DocData) :=
  if slug = [str "changelog"] then
    match fs.readF changelogFilePath with
    | none => .error ()
    | some source =>
      let data : FrontMatterData := { title := some (str "Changelog") }
      let content :=
        if locale ≠ DEFAULT_LOCALE then
          match getLocaleWarning locale with
          | some warning => warning ++ str "\n\n---\n\n" ++ source
          | none => source
        else source
      let isIndex := (str "index.").isPrefixOf (toLowerStr (basenameOf changelogFilePath))
      let title := resolveTitle data content slug
      .ok (some { title := title, slug := slug, content := content, data := data,
                  toc := extractToc content, isIndex := isIndex })
  else
    match resolveDocPath fs locale slug with
    | none => .ok none
    | some filePath =>
      match fs.readF filePath with
      | none => .error ()
      | some source =>
        let (data, content) := matter source
        let isIndex := (str "index.").isPrefixOf (toLowerStr (basenameOf filePath))
        let title := resolveTitle data content slug
        let processedContent := processIncludeDirectives fs content filePath
        .ok (some { title := title, slug := slug, content := processedContent, data := data,
                    toc := extractToc processedContent, isIndex := isIndex })

/-! ## Sidebar construction (getSidebar in docs.ts)

The source obtains the per-locale metadata list from getDocMetaList, a
filesystem walk; the tree construction itself is a pure fold over that list,
so the model takes the metadata list as an argument. -/

/-- Metadata about a documentation page (DocMeta in docs.ts). -/
structure DocMeta where
  title : Str
  slug : List Str
  order : Int
  isIndex : Bool
deriving DecidableEq, Repr

/-- Navigation item for the sidebar structure (NavItem in docs.ts). -/
inductive NavItem where
  | mk (title : Str) (href : Option Str) (order : Int)
      (children : Option (List NavItem)) (segment : Option Str)

/-- Title of a navigation item. -/
def navTitle : NavItem → Str
  | .mk t _ _ _ _ => t

/-- Link of a navigation item. -/
def navHref : NavItem → Option Str
  | .mk _ h _ _ _ => h

/-- Ordering value of a navigation item. -/
def navOrder : NavItem → Int
  | .mk _ _ o _ _ => o

/-- Children of a navigation item. -/
def navChildren : NavItem → Option (List NavItem)
  | .mk _ _ _ c _ => c

/-- Segment of a navigation item. -/
def navSegment : NavItem → Option Str
  | .mk _ _ _ _ s => s

/-- Replacement of the children of a navigation item. -/
def navWithChildren (n : NavItem) (c : Option (List NavItem)) : NavItem :=
  match n with
  | .mk t h o _ s => .mk t h o c s

/-- docHref in docs.ts: locale base path plus the docs prefix plus the
slug path. -/
def docHref (locale : Locale) (slug : List Str) : Str :=
  let base := localeBasePath locale ++ str "/docs"
  if slug = [] then base else base ++ '/' :: joinSegs '/' slug

/-- Intermediate section node created while walking slug segments: humanized
segment title, sentinel order, empty children. -/
def freshSection (seg : Str) : NavItem :=
  .mk (titleFromSlug [seg]) none DEFAULT_ORDER (some []) (some seg)

/-- Lookup-or-create step over one sibling list: the first child carrying
the segment is transformed in place, and when none carries it a fresh
section is transformed and appended at the end, as the source's find-else-
push does. -/
def upsertChild (seg : Str) (f : NavItem → NavItem) : List NavItem → List NavItem
  | [] => [f (freshSection seg)]
  | c :: cs => if navSegment c = some seg then f c :: cs else c :: upsertChild seg f cs

/-- Walk of the slug segments through the mutable tree of the source,
functionally: descending through a segment materialises the children list
(the source's children-or-empty assignment) and recurses into the matching
or freshly pushed section; at the end of the walk the action is applied to
the reached node. -/
def descend (k : NavItem → NavItem) : List Str → NavItem → NavItem
  | [], node => k node
  | seg :: rest, node =>
    navWithChildren node (some (upsertChild seg (descend k rest) ((navChildren node).getD [])))

/-- Insertion of one document into the tree, the body of the source's loop
after the home and intro special cases: an index document walks all its
segments and overwrites the reached node's title, href and order; any other
document walks all but the last segment and pushes a leaf child. -/
def insertDoc (locale : Locale) (doc : DocMeta) (root : NavItem) : NavItem :=
  if doc.isIndex then
    descend
      (fun n => NavItem.mk doc.title (some (docHref locale doc.slug)) doc.order
        (navChildren n) (navSegment n))
      doc.slug root
  else
    descend
      (fun n => navWithChildren n (some ((navChildren n).getD [] ++
        [NavItem.mk doc.title (some (docHref locale doc.slug)) doc.order none doc.slug.getLast?])))
      doc.slug.dropLast root

/-- Synthetic home node built from an empty-slug index document. -/
def homeItem (locale : Locale) (doc : DocMeta) : NavItem :=
  .mk doc.title
    (some (if locale = DEFAULT_LOCALE then str "/" else localeBasePath locale ++ str "/"))
    doc.order none (some [])

/-- Initial root of the tree. -/
def rootInit : NavItem := .mk (str "root") none 0 (some []) none

/-- Fold step of getSidebar over one document: intro slugs are skipped, an
empty-slug index document becomes the home node (last one wins), everything
else is inserted into the tree. -/
def sidebarStep (locale : Locale) (acc : NavItem × Option NavItem) (doc : DocMeta) :
    NavItem × Option NavItem :=
  if doc.slug.head? = some (str "intro") then acc
  else if doc.slug = [] && doc.isIndex then (acc.1, some (homeItem locale doc))
  else (insertDoc locale doc acc.1, acc.2)

/-- Lexicographic code-point comparison of character lists; models the
title comparison of the sidebar sort (localeCompare) as a fixed total
order, which agrees with it on the ASCII titles of the repository. -/
def charListLe : Str → Str → Bool
  | [], _ => true
  | _ :: _, [] => false
  | a :: as, b :: bs => if a < b then true else if b < a then false else charListLe as bs

/-- Comparator of the sidebar sort as a boolean order: order values first,
title comparison as the tie-break, exactly the source's sort callback read
as keep-a-before-b. -/
def navLe (a b : NavItem) : Bool :=
  if navOrder a = navOrder b then charListLe (navTitle a) (navTitle b)
  else decide (navOrder a < navOrder b)

/-- Comparator of the sidebar sort as a relation. -/
def NavLeP (a b : NavItem) : Prop := navLe a b = true

instance : DecidableRel NavLeP := fun a b => instDecidableEqBool (navLe a b) true

/-!
Recursive sort of the tree (sortTree in getSidebar), as a stable sort of
every sibling list.  The source sorts a list in place and then recurses into
the children; since the recursion changes neither order values nor titles,
sorting after the recursion yields the same tree, and a stable insertion
sort models the stable JavaScript array sort.
-/

mutual

/-- Sorting of one node's subtree. -/
def sortNav : NavItem → NavItem
  | .mk t h o c s => .mk t h o (sortChildren c) s

def sortChildren : Option (List NavItem) → Option (List NavItem)
  | none => none
  | some l => some (List.insertionSort NavLeP (sortForest l))

def sortForest : List NavItem → List NavItem
  | [] => []
  | x :: xs => sortNav x :: sortForest xs

end

/-- getSidebar in docs.ts over the metadata list of a locale: fold the
documents into the tree, sort every level recursively, and put the home
node (when present) in front of the sorted top-level list. -/
def getSidebar (locale : Locale) (docs : List DocMeta) : List NavItem :=
  let st := docs.foldl (sidebarStep locale) (rootInit, none)
  let navItems := List.insertionSort NavLeP (sortForest ((navChildren st.1).getD []))
  match st.2 with
  | some home => home :: navItems
  | none => navItems

/-! ## Docs pages (src/app/docs and the locale docs page) -/

/-- UI strings of a locale, restricted to the field the docs pages use. -/
structure UiStrings where
  missingTranslation : Str
deriving DecidableEq, Repr

/-- getUi in src/lib/locales.ts, restricted to the missing-translation
notice. -/
def getUi : Locale → UiStrings
  | .en => ⟨str "This page is not yet translated. Showing English."⟩
  | .zh => ⟨str "该页面暂无翻译，已显示英文版本。"⟩
  | .ja => ⟨str "このページの翻訳はまだありません。英語版を表示しています。"⟩

/-- Outcome of a docs page render: a redirect, a not-found, or a shell
render carrying the document fed to the Markdown renderer and the notice
passed to the shell. -/
inductive PageResult where
  | redirectTo (target : Str)
  | pageNotFound
  | render (locale : Locale) (doc : DocData) (notice : Option Str)
deriving DecidableEq, Repr

/-- Page in src/app/[locale]/docs/[[...slug]]/page.tsx: validates the locale
segment (rejecting the default locale, which lives at the unprefixed route),
redirects the intro slug, resolves an empty slug to intro, fetches the
requested document and the default-locale document, picks the API fallback
or the primary-else-fallback document, and renders with the
missing-translation notice exactly when the slug is an API slug or the
primary lookup came back empty while the fallback succeeded. -/
def localePage (fs : FS) (localeStr : Str) (slug : List Str) : Except Unit PageResult :=
  match isLocaleOf localeStr with
  | none => .ok .pageNotFound
  | some locale =>
    if locale = DEFAULT_LOCALE then .ok .pageNotFound
    else if slug = [str "intro"] then .ok (.redirectTo (('/' :: localeStr) ++ str "/docs"))
    else
      let resolvedSlug := if slug = [] then [str "intro"] else slug
      let isApi := resolvedSlug.head? = some (str "api")
      match getDoc fs locale resolvedSlug with
      | .error e => .error e
      | .ok primaryDoc =>
        match getDoc fs DEFAULT_LOCALE resolvedSlug with
        | .error e => .error e
        | .ok fallbackDoc =>
          match if isApi then fallbackDoc else primaryDoc.orElse (fun _ => fallbackDoc) with
          | none => .ok .pageNotFound
          | some doc =>
            let notice :=
              if isApi ∨ (primaryDoc = none ∧ fallbackDoc ≠ none) then
                some (getUi locale).missingTranslation
              else none
            .ok (.render locale doc notice)

/-- Page in src/app/docs/[[...slug]]/page.tsx: the default-locale docs page;
redirects the intro slug, resolves an empty slug to intro, 404s on a missing
document and always renders with no notice. -/
def defaultPage (fs : FS) (slug : List Str) : Except Unit PageResult :=
  if slug = [str "intro"] then .ok (.redirectTo (str "/docs"))
  else
    let resolvedSlug := if slug = [] then [str "intro"] else slug
    match getDoc fs DEFAULT_LOCALE resolvedSlug with
    | .error e => .error e
    | .ok none => .ok .pageNotFound
    | .ok (some doc) => .ok (.render DEFAULT_LOCALE doc none)

/-! ## Properties of the sidebar order -/

/-- Case analysis of the character-list order on cons cells. -/
theorem charListLe_cons_iff (x y : Char) (xs ys : Str) :
    charListLe (x :: xs) (y :: ys) = true ↔ x < y ∨ (x = y ∧ charListLe xs ys = true) := by
  simp only [charListLe]
  rcases lt_trichotomy x y with hlt | heq | hgt
  · simp [hlt]
  · simp [heq, lt_irrefl]
  · simp [hgt, asymm hgt, ne_of_gt hgt]

/-- Totality of the character-list order. -/
theorem charListLe_total : ∀ a b : Str, charListLe a b = true ∨ charListLe b a = true := by
  intro a
  induction a with
  | nil => intro b; left; rfl
  | cons x xs ih =>
    intro b
    cases b with
    | nil => right; rfl
    | cons y ys =>
      rcases lt_trichotomy x y with hlt | heq | hgt
      · left; exact (charListLe_cons_iff _ _ _ _).mpr (Or.inl hlt)
      · rcases ih ys with h | h
        · left; exact (charListLe_cons_iff _ _ _ _).mpr (Or.inr ⟨heq, h⟩)
        · right; exact (charListLe_cons_iff _ _ _ _).mpr (Or.inr ⟨heq.symm, h⟩)
      · right; exact (charListLe_cons_iff _ _ _ _).mpr (Or.inl hgt)

/-- Transitivity of the character-list order. -/
theorem charListLe_trans : ∀ a b c : Str,
    charListLe a b = true → charListLe b c = true → charListLe a c = true := by
  intro a
  induction a with
  | nil => intro b c _ _; rfl
  | cons x xs ih =>
    intro b c hab hbc
    cases b with
    | nil => simp [charListLe] at hab
    | cons y ys =>
      cases c with
      | nil => simp [charListLe] at hbc
      | cons z zs =>
        rcases (charListLe_cons_iff _ _ _ _).mp hab with hxy | ⟨rfl, hab'⟩
        · rcases (charListLe_cons_iff _ _ _ _).mp hbc with hyz | ⟨rfl, _⟩
          · exact (charListLe_cons_iff _ _ _ _).mpr (Or.inl (lt_trans hxy hyz))
          · exact (charListLe_cons_iff _ _ _ _).mpr (Or.inl hxy)
        · rcases (charListLe_cons_iff _ _ _ _).mp hbc with hyz | ⟨rfl, hbc'⟩
          · exact (charListLe_cons_iff _ _ _ _).mpr (Or.inl hyz)
          · exact (charListLe_cons_iff _ _ _ _).mpr (Or.inr ⟨rfl, ih ys zs hab' hbc'⟩)

/-- Unfolding of the sidebar comparator into the order-then-title reading. -/
theorem navLe_iff (a b : NavItem) : navLe a b = true ↔
    navOrder a < navOrder b ∨
      (navOrder a = navOrder b ∧ charListLe (navTitle a) (navTitle b) = true) := by
  unfold navLe
  by_cases h : navOrder a = navOrder b
  · simp [h, lt_irrefl]
  · simp [h]

instance : IsTotal NavItem NavLeP := by
  constructor
  intro a b
  unfold NavLeP
  rw [navLe_iff, navLe_iff]
  rcases lt_trichotomy (navOrder a) (navOrder b) with hlt | heq | hgt
  · exact Or.inl (Or.inl hlt)
  · rcases charListLe_total (navTitle a) (navTitle b) with h | h
    · exact Or.inl (Or.inr ⟨heq, h⟩)
    · exact Or.inr (Or.inr ⟨heq.symm, h⟩)
  · exact Or.inr (Or.inl hgt)

instance : IsTrans NavItem NavLeP := by
  constructor
  intro a b c hab hbc
  unfold NavLeP at *
  rw [navLe_iff] at hab hbc ⊢
  rcases hab with hab | ⟨hab, hab'⟩
  · rcases hbc with hbc | ⟨hbc, _⟩
    · exact Or.inl (lt_trans hab hbc)
    · exact Or.inl (hbc ▸ hab)
  · rcases hbc with hbc | ⟨hbc, hbc'⟩
    · exact Or.inl (hab ▸ hbc)
    · exact Or.inr ⟨hab.trans hbc, charListLe_trans _ _ _ hab' hbc'⟩

/-- Predicate of claim C2: every sibling list of the subtree of a node is
sorted by the sidebar comparator. -/
inductive SortedNav : NavItem → Prop where
  | mk : ∀ t h o c s,
      (∀ l, c = some l → l.Pairwise NavLeP) →
      (∀ l, c = some l → ∀ x ∈ l, SortedNav x) →
      SortedNav (.mk t h o c s)

/-- Predicate of claim C9: a node (and every node below it) has a defined
href or a non-empty children list. -/
inductive NavOk : NavItem → Prop where
  | mk : ∀ t h o c s,
      (h.isSome = true ∨ ∃ l, c = some l ∧ l ≠ []) →
      (∀ l, c = some l → ∀ x ∈ l, NavOk x) →
      NavOk (.mk t h o c s)

/-- Weaker form of the claim C9 predicate used for the tree root, which is
never emitted: only the children are constrained. -/
def NavOkF (n : NavItem) : Prop :=
  ∀ l, navChildren n = some l → ∀ x ∈ l, NavOk x

theorem NavOk.toF {n : NavItem} (h : NavOk n) : NavOkF n := by
  cases h with
  | mk t hh o c s _ hc => intro l hl x hx; exact hc l hl x hx

/-- Unfolding of the forest sort as a map. -/
theorem sortForest_eq_map : ∀ l : List NavItem, sortForest l = l.map sortNav := by
  intro l
  induction l with
  | nil => simp [sortForest]
  | cons x xs ih => simp [sortForest, ih]

theorem sortNav_mk (t : Str) (h : Option Str) (o : Int) (c : Option (List NavItem))
    (s : Option Str) : sortNav (.mk t h o c s) = .mk t h o (sortChildren c) s := by
  simp [sortNav]

/-- Size bound used for the strong inductions over the nested tree. -/
theorem sizeOf_mem_children {y : NavItem} {l : List NavItem} (t : Str) (h : Option Str)
    (o : Int) (s : Option Str) (hy : y ∈ l) :
    sizeOf y < sizeOf (NavItem.mk t h o (some l) s) := by
  have h1 := List.sizeOf_lt_of_mem hy
  simp only [NavItem.mk.sizeOf_spec, Option.some.sizeOf_spec]
  omega

/-- Every sibling list of a recursively sorted tree is sorted. -/
theorem sortNav_sorted (n : NavItem) : SortedNav (sortNav n) := by
  suffices H : ∀ (k : Nat) (m : NavItem), sizeOf m ≤ k → SortedNav (sortNav m) by
    exact H (sizeOf n) n le_rfl
  intro k
  induction k with
  | zero =>
    intro m hm
    exfalso
    cases m with
    | mk t h o c s =>
      simp only [NavItem.mk.sizeOf_spec] at hm
      omega
  | succ k ih =>
    intro m hm
    cases m with
    | mk t h o c s =>
      rw [sortNav_mk]
      refine SortedNav.mk t h o (sortChildren c) s ?_ ?_
      · intro l hl
        cases c with
        | none => simp [sortChildren] at hl
        | some l0 =>
          simp only [sortChildren, Option.some.injEq] at hl
          subst hl
          exact List.sorted_insertionSort NavLeP (sortForest l0)
      · intro l hl x hx
        cases c with
        | none => simp [sortChildren] at hl
        | some l0 =>
          simp only [sortChildren, Option.some.injEq] at hl
          subst hl
          have hx' : x ∈ sortForest l0 :=
            (List.perm_insertionSort NavLeP (sortForest l0)).mem_iff.mp hx
          rw [sortForest_eq_map] at hx'
          obtain ⟨y, hy, rfl⟩ := List.mem_map.mp hx'
          refine ih y ?_
          have h2 := sizeOf_mem_children t h o s hy
          simp only [NavItem.mk.sizeOf_spec, Option.some.sizeOf_spec] at hm h2
          omega

/-- Sorting preserves the claim C9 invariant. -/
theorem sortNav_navOk {n : NavItem} (hn : NavOk n) : NavOk (sortNav n) := by
  suffices H : ∀ (k : Nat) (m : NavItem), sizeOf m ≤ k → NavOk m → NavOk (sortNav m) by
    exact H (sizeOf n) n le_rfl hn
  intro k
  induction k with
  | zero =>
    intro m hm
    exfalso
    cases m with
    | mk t h o c s =>
      simp only [NavItem.mk.sizeOf_spec] at hm
      omega
  | succ k ih =>
    intro m hm hok
    cases hok with
    | mk t h o c s hho hc =>
      rw [sortNav_mk]
      refine NavOk.mk t h o (sortChildren c) s ?_ ?_
      · rcases hho with hh | ⟨l, rfl, hne⟩
        · exact Or.inl hh
        · refine Or.inr ⟨List.insertionSort NavLeP (sortForest l), by simp [sortChildren], ?_⟩
          intro hcon
          apply hne
          have hperm := List.perm_insertionSort NavLeP (sortForest l)
          rw [hcon] at hperm
          have h0 : sortForest l = [] := hperm.symm.eq_nil
          rw [sortForest_eq_map] at h0
          exact List.map_eq_nil_iff.mp h0
      · intro l' hl' x hx
        cases c with
        | none => simp [sortChildren] at hl'
        | some l0 =>
          simp only [sortChildren, Option.some.injEq] at hl'
          subst hl'
          have hx' : x ∈ sortForest l0 :=
            (List.perm_insertionSort NavLeP (sortForest l0)).mem_iff.mp hx
          rw [sortForest_eq_map] at hx'
          obtain ⟨y, hy, rfl⟩ := List.mem_map.mp hx'
          refine ih y ?_ (hc l0 rfl y hy)
          have h2 := sizeOf_mem_children t h o s hy
          simp only [NavItem.mk.sizeOf_spec, Option.some.sizeOf_spec] at hm h2
          omega

/-! ## Construction of the tree preserves the claim C9 invariant -/

/-- The fresh section node constrains nothing below it. -/
theorem freshSection_okF (seg : Str) : NavOkF (freshSection seg) := by
  intro l hl x hx
  simp [freshSection, navChildren] at hl
  subst hl
  simp at hx

/-- Upserting into a sibling list of valid nodes keeps every element valid
and never empties the list. -/
theorem upsertChild_ok (seg : Str) (f : NavItem → NavItem)
    (hf : ∀ c, NavOkF c → NavOk (f c)) :
    ∀ l : List NavItem, (∀ x ∈ l, NavOk x) →
      (∀ x ∈ upsertChild seg f l, NavOk x) ∧ upsertChild seg f l ≠ [] := by
  intro l
  induction l with
  | nil =>
    intro _
    constructor
    · intro x hx
      simp only [upsertChild, List.mem_singleton] at hx
      subst hx
      exact hf _ (freshSection_okF seg)
    · simp [upsertChild]
  | cons c cs ih =>
    intro hl
    by_cases hseg : navSegment c = some seg
    · constructor
      · intro x hx
        simp only [upsertChild, if_pos hseg, List.mem_cons] at hx
        rcases hx with rfl | hx
        · exact hf c (hl c (by simp)).toF
        · exact hl x (by simp [hx])
      · simp [upsertChild, hseg]
    · have ih' := ih (fun x hx => hl x (by simp [hx]))
      constructor
      · intro x hx
        simp only [upsertChild, if_neg hseg, List.mem_cons] at hx
        rcases hx with rfl | hx
        · exact hl x (by simp)
        · exact ih'.1 x hx
      · simp [upsertChild, hseg]

/-- Descending through segments from a node with valid children yields a
valid node, provided the terminal action yields a valid node from any node
with valid children. -/
theorem descend_ok (k : NavItem → NavItem) (hk : ∀ m, NavOkF m → NavOk (k m)) :
    ∀ (segs : List Str) (n : NavItem), NavOkF n → NavOk (descend k segs n) := by
  intro segs
  induction segs with
  | nil => intro n hn; simpa [descend] using hk n hn
  | cons seg rest ih =>
    intro n hn
    cases n with
    | mk t h o c s =>
      simp only [descend, navWithChildren]
      have hl : ∀ x ∈ ((navChildren (NavItem.mk t h o c s)).getD []), NavOk x := by
        cases c with
        | none => simp [navChildren]
        | some l0 =>
          intro x hx
          exact hn l0 rfl x (by simpa [navChildren] using hx)
      have hup := upsertChild_ok seg (descend k rest) ih _ hl
      refine NavOk.mk t h o _ s (Or.inr ⟨_, rfl, hup.2⟩) ?_
      intro l hl' x hx
      simp only [Option.some.injEq] at hl'
      subst hl'
      exact hup.1 x hx

/-- Inserting one document into a root with valid children yields a valid
node. -/
theorem insertDoc_ok (locale : Locale) (doc : DocMeta) (root : NavItem)
    (hr : NavOkF root) : NavOk (insertDoc locale doc root) := by
  unfold insertDoc
  by_cases hidx : doc.isIndex
  · rw [if_pos hidx]
    refine descend_ok _ ?_ doc.slug root hr
    intro m hm
    cases m with
    | mk t h o c s =>
      exact NavOk.mk _ _ _ _ _ (Or.inl rfl) (fun l hl x hx => hm l (by simpa [navChildren] using hl) x hx)
  · rw [if_neg hidx]
    refine descend_ok _ ?_ doc.slug.dropLast root hr
    intro m hm
    cases m with
    | mk t h o c s =>
      simp only [navWithChildren]
      refine NavOk.mk t h o _ s (Or.inr ⟨_, rfl, by simp⟩) ?_
      intro l hl x hx
      simp only [Option.some.injEq] at hl
      subst hl
      rcases List.mem_append.mp hx with hx | hx
      · cases c with
        | none => simp [navChildren] at hx
        | some l0 => exact hm l0 rfl x (by simpa [navChildren] using hx)
      · simp only [List.mem_singleton] at hx
        subst hx
        exact NavOk.mk _ _ _ _ _ (Or.inl rfl) (by intro l hl; simp at hl)

/-- The home node is always valid. -/
theorem homeItem_ok (locale : Locale) (doc : DocMeta) : NavOk (homeItem locale doc) := by
  unfold homeItem
  exact NavOk.mk _ _ _ _ _ (Or.inl rfl) (by intro l hl; simp at hl)

/-- Invariant of the sidebar fold: the accumulated root has valid children
and the accumulated home node, when present, is valid. -/
theorem sidebar_fold_ok (locale : Locale) :
    ∀ (docs : List DocMeta) (acc : NavItem × Option NavItem),
      NavOkF acc.1 → (∀ hm, acc.2 = some hm → NavOk hm) →
      NavOkF (docs.foldl (sidebarStep locale) acc).1 ∧
        (∀ hm, (docs.foldl (sidebarStep locale) acc).2 = some hm → NavOk hm) := by
  intro docs
  induction docs with
  | nil => intro acc h1 h2; exact ⟨h1, h2⟩
  | cons doc rest ih =>
    intro acc h1 h2
    rw [List.foldl_cons]
    apply ih
    · unfold sidebarStep
      by_cases hintro : doc.slug.head? = some (str "intro")
      · rw [if_pos hintro]; exact h1
      · rw [if_neg hintro]
        by_cases hhome : doc.slug = [] ∧ doc.isIndex
        · rw [if_pos (by simp [hhome.1, hhome.2])]
          exact h1
        · rw [if_neg (by simpa [Decidable.not_and_iff_or_not] using
            (by tauto : ¬ (doc.slug = [] ∧ doc.isIndex = true)))]
          exact (insertDoc_ok locale doc acc.1 h1).toF
    · unfold sidebarStep
      by_cases hintro : doc.slug.head? = some (str "intro")
      · rw [if_pos hintro]; exact h2
      · rw [if_neg hintro]
        by_cases hhome : doc.slug = [] ∧ doc.isIndex
        · rw [if_pos (by simp [hhome.1, hhome.2])]
          intro hm hhm
          simp only [Option.some.injEq] at hhm
          subst hhm
          exact homeItem_ok locale doc
        · rw [if_neg (by simpa [Decidable.not_and_iff_or_not] using
            (by tauto : ¬ (doc.slug = [] ∧ doc.isIndex = true)))]
          exact h2

/-- The accumulated home node of the sidebar fold, when present, is a home
item of some document. -/
theorem sidebar_fold_home (locale : Locale) :
    ∀ (docs : List DocMeta) (acc : NavItem × Option NavItem),
      (∀ hm, acc.2 = some hm → ∃ d, hm = homeItem locale d) →
      ∀ hm, (docs.foldl (sidebarStep locale) acc).2 = some hm → ∃ d, hm = homeItem locale d := by
  intro docs
  induction docs with
  | nil => intro acc h; exact h
  | cons doc rest ih =>
    intro acc h
    rw [List.foldl_cons]
    apply ih
    unfold sidebarStep
    by_cases hintro : doc.slug.head? = some (str "intro")
    · rw [if_pos hintro]; exact h
    · rw [if_neg hintro]
      by_cases hhome : doc.slug = [] ∧ doc.isIndex
      · rw [if_pos (by simp [hhome.1, hhome.2])]
        intro hm hhm
        simp only [Option.some.injEq] at hhm
        exact ⟨doc, hhm.symm⟩
      · rw [if_neg (by simpa [Decidable.not_and_iff_or_not] using
          (by tauto : ¬ (doc.slug = [] ∧ doc.isIndex = true)))]
        exact h

/-- The home item has no children, hence is trivially recursively sorted. -/
theorem homeItem_sortedNav (locale : Locale) (doc : DocMeta) :
    SortedNav (homeItem locale doc) := by
  unfold homeItem
  exact SortedNav.mk _ _ _ _ _ (by intro l hl; simp at hl) (by intro l hl; simp at hl)

/-- Root of the sidebar fold has valid (empty) children. -/
theorem rootInit_okF : NavOkF rootInit := by
  intro l hl x hx
  simp only [rootInit, navChildren, Option.some.injEq] at hl
  subst hl
  simp at hx

/-- Every element of the sorted top-level list of the sidebar is obtained by
recursively sorting a child of the folded root. -/
theorem mem_top_sorted {docs : List DocMeta} {locale : Locale} {x : NavItem}
    (hx : x ∈ List.insertionSort NavLeP (sortForest
      ((navChildren (docs.foldl (sidebarStep locale) (rootInit, none)).1).getD []))) :
    ∃ y, y ∈ (navChildren (docs.foldl (sidebarStep locale) (rootInit, none)).1).getD [] ∧
      x = sortNav y := by
  have hx' := (List.perm_insertionSort NavLeP _).mem_iff.mp hx
  rw [sortForest_eq_map] at hx'
  obtain ⟨y, hy, rfl⟩ := List.mem_map.mp hx'
  exact ⟨y, hy, rfl⟩

/-- Sidebar metadata of the order-stability example of the specification:
orders 9999, 2, 2, 1 with titles Zebra, Banana, Apple, Intro. -/
def sortExampleDocs : List DocMeta :=
  [⟨str "Zebra", [str "z"], 9999, false⟩,
   ⟨str "Banana", [str "b"], 2, false⟩,
   ⟨str "Apple", [str "a"], 2, false⟩,
   ⟨str "Intro", [str "i"], 1, false⟩]

/-- Sidebar metadata with a synthetic home document of large order in
front. -/
def homeExampleDocs : List DocMeta :=
  ⟨str "Welcome", [], 42, true⟩ :: sortExampleDocs

/-- Claim C2: for every locale (and metadata list), every sibling list at
every depth of the getSidebar result is sorted by order-then-title
ascending — on the example with orders 9999, 2, 2, 1 and titles Zebra,
Banana, Apple, Intro the top level comes out as Intro, Apple, Banana,
Zebra — except that the synthetic home node, when present, stands first in
the top-level list regardless of its order value, the remainder of the
top-level list being sorted. -/
theorem claim_C2_sidebar_sorted (locale : Locale) (docs : List DocMeta) :
    (∀ x ∈ getSidebar locale docs, SortedNav x) ∧
    ((docs.foldl (sidebarStep locale) (rootInit, none)).2 = none →
      (getSidebar locale docs).Pairwise NavLeP) ∧
    (∀ home, (docs.foldl (sidebarStep locale) (rootInit, none)).2 = some home →
      ∃ tail, getSidebar locale docs = home :: tail ∧ tail.Pairwise NavLeP) ∧
    (getSidebar .en sortExampleDocs).map navTitle =
      [str "Intro", str "Apple", str "Banana", str "Zebra"] := by
  refine ⟨?_, ?_, ?_, by decide⟩
  · intro x hx
    simp only [getSidebar] at hx
    rcases hsnd : (docs.foldl (sidebarStep locale) (rootInit, none)).2 with _ | home
    · rw [hsnd] at hx
      obtain ⟨y, _, rfl⟩ := mem_top_sorted hx
      exact sortNav_sorted y
    · rw [hsnd] at hx
      rcases List.mem_cons.mp hx with rfl | hx
      · obtain ⟨d, rfl⟩ := sidebar_fold_home locale docs (rootInit, none)
          (by intro hm h; simp at h) x hsnd
        exact homeItem_sortedNav locale d
      · obtain ⟨y, _, rfl⟩ := mem_top_sorted hx
        exact sortNav_sorted y
  · intro hnone
    simp only [getSidebar, hnone]
    exact List.sorted_insertionSort NavLeP _
  · intro home hsome
    refine ⟨List.insertionSort NavLeP (sortForest
      ((navChildren (docs.foldl (sidebarStep locale) (rootInit, none)).1).getD [])),
      ?_, List.sorted_insertionSort NavLeP _⟩
    simp only [getSidebar, hsome]

/-- Witness for claim C2: on the concrete order-stability example the
top-level list is sorted, and with a home document present the result is
the home node followed by a sorted tail. -/
theorem claim_C2_sidebar_sorted_witness :
    (getSidebar .en sortExampleDocs).Pairwise NavLeP ∧
    ∃ tail, getSidebar .en homeExampleDocs =
        homeItem .en ⟨str "Welcome", [], 42, true⟩ :: tail ∧ tail.Pairwise NavLeP :=
  ⟨(claim_C2_sidebar_sorted .en sortExampleDocs).2.1 rfl,
   (claim_C2_sidebar_sorted .en homeExampleDocs).2.2.1 _ rfl⟩

/-- Claim C9: every navigation item at every depth of the getSidebar result
has a defined href or a non-empty children list (the NavOk predicate is
hereditary over the whole subtree). -/
theorem claim_C9_sidebar_nodes_valid (locale : Locale) (docs : List DocMeta)
    (x : NavItem) (hx : x ∈ getSidebar locale docs) : NavOk x := by
  have hfold := sidebar_fold_ok locale docs (rootInit, none) rootInit_okF
    (by intro hm h; simp at h)
  simp only [getSidebar] at hx
  rcases hsnd : (docs.foldl (sidebarStep locale) (rootInit, none)).2 with _ | home
  · rw [hsnd] at hx
    obtain ⟨y, hy, rfl⟩ := mem_top_sorted hx
    apply sortNav_navOk
    rcases hc : navChildren (docs.foldl (sidebarStep locale) (rootInit, none)).1 with _ | l
    · rw [hc] at hy; simp at hy
    · rw [hc] at hy; exact hfold.1 l hc y (by simpa using hy)
  · rw [hsnd] at hx
    rcases List.mem_cons.mp hx with rfl | hx
    · exact hfold.2 x hsnd
    · obtain ⟨y, hy, rfl⟩ := mem_top_sorted hx
      apply sortNav_navOk
      rcases hc : navChildren (docs.foldl (sidebarStep locale) (rootInit, none)).1 with _ | l
      · rw [hc] at hy; simp at hy
      · rw [hc] at hy; exact hfold.1 l hc y (by simpa using hy)

/-- Witness for claim C9: the home node of the concrete example sidebar is a
member of the result and is valid. -/
theorem claim_C9_sidebar_nodes_valid_witness :
    NavOk (homeItem .en ⟨str "Welcome", [], 42, true⟩) :=
  claim_C9_sidebar_nodes_valid .en homeExampleDocs _ (by
    have h : getSidebar .en homeExampleDocs =
        homeItem .en ⟨str "Welcome", [], 42, true⟩ ::
          List.insertionSort NavLeP (sortForest ((navChildren
            (homeExampleDocs.foldl (sidebarStep .en) (rootInit, none)).1).getD [])) := rfl
    rw [h]
    exact List.mem_cons_self _ _)

/-! ## Claim C6: slug derivation -/

/-- Dropping an appended literal prefix. -/
theorem dropPre_append : ∀ (p rest : Str), dropPre p (p ++ rest) = some rest := by
  intro p
  induction p with
  | nil => intro rest; rfl
  | cons a p ih => intro rest; simp [dropPre, ih]

/-- Relative path of a file under the root. -/
theorem pathRelativeModel_concat (root rel : Str) :
    pathRelativeModel root (root ++ '/' :: rel) = rel := by
  unfold pathRelativeModel
  rw [show root ++ '/' :: rel = (root ++ ['/']) ++ rel by simp]
  rw [dropPre_append]

/-- Raw slug parts of a file under the root, reduced to its relative
path. -/
theorem rawSlugParts_concat (root rel : Str) :
    rawSlugParts root (root ++ '/' :: rel) =
      (splitOnChar '/' (stripMdExt (rel.map (fun c => if c = '\\' then '/' else c)))).filter
        (· ≠ []) := by
  unfold rawSlugParts
  rw [pathRelativeModel_concat]

/-- Claim C6: for every root and file under it, slugFromFile takes the
root-relative path, splits it on separators, strips a trailing Markdown
extension and drops the final segment exactly when it is literally index:
hence the three spellings x/y/index.md, x/y/index.mdx and x/y.md all derive
the slug x, y, and the root index file derives the empty slug. -/
theorem claim_C6_slug_derivation (root : Str) :
    slugFromFile root (root ++ str "/x/y/index.md") = [str "x", str "y"] ∧
    slugFromFile root (root ++ str "/x/y/index.mdx") = [str "x", str "y"] ∧
    slugFromFile root (root ++ str "/x/y.md") = [str "x", str "y"] ∧
    slugFromFile root (root ++ str "/index.md") = [] ∧
    (∀ fp, slugFromFile root fp =
      if (rawSlugParts root fp).getLast? = some (str "index")
      then (rawSlugParts root fp).dropLast else rawSlugParts root fp) := by
  refine ⟨?_, ?_, ?_, ?_, fun fp => rfl⟩
  · rw [show (str "/x/y/index.md" : Str) = '/' :: str "x/y/index.md" from rfl]
    unfold slugFromFile
    rw [rawSlugParts_concat]
    decide
  · rw [show (str "/x/y/index.mdx" : Str) = '/' :: str "x/y/index.mdx" from rfl]
    unfold slugFromFile
    rw [rawSlugParts_concat]
    decide
  · rw [show (str "/x/y.md" : Str) = '/' :: str "x/y.md" from rfl]
    unfold slugFromFile
    rw [rawSlugParts_concat]
    decide
  · rw [show (str "/index.md" : Str) = '/' :: str "index.md" from rfl]
    unfold slugFromFile
    rw [rawSlugParts_concat]
    decide

/-! ## Claims C7 and C10: table-of-contents extraction -/

/-- Projection of the TOC fold: texts and levels of the collected items,
independently of the slugger state. -/
theorem toc_fold_spec :
    ∀ (lines : List Str) (items : List TocItem) (occ : List (Str × Nat)),
      ((lines.foldl tocStep (items, occ)).1).map (fun i => (i.text, i.level)) =
        items.map (fun i => (i.text, i.level)) ++
          (lines.filterMap lineHeading).map (fun p => (p.2, p.1)) := by
  intro lines
  induction lines with
  | nil => intro items occ; simp
  | cons line rest ih =>
    intro items occ
    rw [List.foldl_cons, List.filterMap_cons]
    cases hl : lineHeading line with
    | none =>
      rw [show tocStep (items, occ) line = (items, occ) from by simp [tocStep, hl]]
      exact ih items occ
    | some p =>
      rw [show tocStep (items, occ) line =
        (items ++ [⟨(sluggerSlug occ p.2).1, p.2, p.1⟩], (sluggerSlug occ p.2).2) from by
          simp [tocStep, hl]]
      rw [ih]
      simp

/-- Levels produced by the heading matcher are two or three. -/
theorem lineHeading_level {line : Str} {p : Nat × Str} (h : lineHeading line = some p) :
    p.1 = 2 ∨ p.1 = 3 := by
  unfold lineHeading at h
  cases hc : lineHeadingCore line with
  | none => rw [hc] at h; simp at h
  | some q =>
    rw [hc] at h
    have h2 : (q.1, unescapeTitle (trimStr (stripTrailingHash q.2))) = p := by
      simpa [Option.map] using h
    subst h2
    unfold lineHeadingCore at hc
    dsimp only at hc
    split at hc
    case isTrue h23 =>
      split at hc
      · simp at hc
      · split at hc
        · simp only [Option.some.injEq] at hc
          subst hc
          simpa using h23
        · split at hc
          · simp only [Option.some.injEq] at hc
            subst hc
            simpa using h23
          · simp at hc
    case isFalse => simp at hc

/-- Claim C7: extractToc returns one item per line matching a level-2 or
level-3 ATX heading, in source order, with ids assigned by a fresh
per-document slugger that suffixes a counter on collision — two identical
Setup headings give ids setup and setup-1 — and lines of level 1 or 4 and
deeper contribute nothing. -/
theorem claim_C7_toc_extraction :
    ((extractToc (str "## Setup\n\nSome text\n\n## Setup")).map TocItem.id =
      [str "setup", str "setup-1"]) ∧
    (∀ content, (extractToc content).map (fun i => (i.text, i.level)) =
      ((splitLinesJS content).filterMap lineHeading).map (fun p => (p.2, p.1))) ∧
    (∀ line p, lineHeading line = some p → p.1 = 2 ∨ p.1 = 3) ∧
    lineHeading (str "# Title") = none ∧
    lineHeading (str "#### Deep") = none := by
  refine ⟨by decide, ?_, fun line p h => lineHeading_level h, by decide, by decide⟩
  intro content
  unfold extractToc
  simpa using toc_fold_spec (splitLinesJS content) [] []

/-- Witness for claim C7: the projection identity evaluated on the concrete
two-setup document, and the level bound at a concrete heading line. -/
theorem claim_C7_toc_extraction_witness :
    ((extractToc (str "## Setup\n\n### Sub\n\n## Setup")).map (fun i => (i.text, i.level)) =
      ((splitLinesJS (str "## Setup\n\n### Sub\n\n## Setup")).filterMap lineHeading).map
        (fun p => (p.2, p.1))) ∧
    ((2 : Nat) = 2 ∨ (2 : Nat) = 3) :=
  ⟨claim_C7_toc_extraction.2.1 _,
   claim_C7_toc_extraction.2.2.1 (str "## A") (2, str "A") (by decide)⟩

/-- Claim C10: extractToc keeps no code-fence state: a level-2 heading line
lying between fence lines still yields an item (with text Example in the
concrete body). -/
theorem claim_C10_toc_ignores_fences :
    extractToc (str "```\n## Example\n```") = [⟨str "example", str "Example", 2⟩] := by
  decide

/-! ## Claim C3: relative-link rewriting -/

/-- Claim C3: the rewriter leaves external URLs unchanged, and resolves
every other non-empty URL against the current document's directory — the
document's own slug path when it is an index page, else the parent of that
path — normalizing dot segments, stripping a trailing Markdown extension,
collapsing a trailing slash-index and prefixing the base path; concretely,
for the non-index document at slug guides, setup with base path /docs the
link ../intro.md becomes /docs/intro, ./advanced.md becomes
/docs/guides/advanced, while an https link and a hash anchor are left
unchanged. -/
theorem claim_C3_link_rewriting :
    (∀ basePath slug isIndex url, isExternal url = true →
      rewriteUrl basePath slug isIndex url = url) ∧
    (∀ basePath slug isIndex url, isExternal url = false → url ≠ [] →
      rewriteUrl basePath slug isIndex url =
        finishUrl basePath
          (posixNormalize (posixNormalize (currentDirOf slug isIndex ++ '/' :: url)))) ∧
    rewriteUrl (str "/docs") [str "guides", str "setup"] false (str "../intro.md") =
      str "/docs/intro" ∧
    rewriteUrl (str "/docs") [str "guides", str "setup"] false (str "./advanced.md") =
      str "/docs/guides/advanced" ∧
    rewriteUrl (str "/docs") [str "guides", str "setup"] false (str "https://example.com") =
      str "https://example.com" ∧
    rewriteUrl (str "/docs") [str "guides", str "setup"] false (str "#anchor") =
      str "#anchor" := by
  refine ⟨?_, ?_, by decide, by decide, by decide, by decide⟩
  · intro bp slug isIdx url hext
    unfold rewriteUrl
    by_cases hurl : url = []
    · rw [if_pos hurl]
    · rw [if_neg hurl, if_pos hext]
  · intro bp slug isIdx url hext hurl
    unfold rewriteUrl
    rw [if_neg hurl, if_neg (by simp [hext])]

/-- Witness for claim C3: the pass-through case at a hash anchor and the
resolution case at a relative link, both at concrete inputs. -/
theorem claim_C3_link_rewriting_witness :
    rewriteUrl (str "/docs") [str "guides"] true (str "#frag") = str "#frag" ∧
    rewriteUrl (str "/docs") [str "guides", str "setup"] false (str "../intro.md") =
      finishUrl (str "/docs")
        (posixNormalize (posixNormalize
          (currentDirOf [str "guides", str "setup"] false ++ '/' :: str "../intro.md"))) :=
  ⟨claim_C3_link_rewriting.1 _ _ _ _ (by decide),
   claim_C3_link_rewriting.2.1 _ _ _ _ (by decide) (by decide)⟩

/-! ## Claims C4 and C5: include resolution -/

/-- First-occurrence replacement on an exhibited split of the string: the
replacement is the GetSubstitution-processed contents. -/
theorem replaceFirst_split (pre m post rep : Str)
    (hidx : firstIdx (pre ++ m ++ post) m = some pre.length) :
    replaceFirst (pre ++ m ++ post) m rep =
      pre ++ getSubstitution m pre post rep ++ post := by
  unfold replaceFirst
  rw [hidx]
  dsimp only
  have h1 : (pre ++ m ++ post).take pre.length = pre := by
    rw [List.append_assoc]
    exact List.take_left pre (m ++ post)
  have h2 : (pre ++ m ++ post).drop (pre.length + m.length) = post := by
    rw [show pre.length + m.length = (pre ++ m).length from by simp]
    exact List.drop_left (pre ++ m) post
  rw [h1, h2]

/-- Unfolding of dollarFree on a non-dollar head. -/
theorem dollarFree_cons_ne (c : Char) (rest : Str) (hc : ¬ (c = '$')) :
    dollarFree (c :: rest) = dollarFree rest := by
  conv_lhs => rw [dollarFree.eq_def]
  dsimp only
  rw [if_neg hc]

/-- Unfolding of dollarFree on a dollar followed by a non-special
character. -/
theorem dollarFree_dollar_ok (c2 : Char) (rest2 : Str)
    (hs : ¬ ((c2 = '$' || c2 = '&' || c2 = Char.ofNat 96 || c2 = Char.ofNat 39) = true)) :
    dollarFree ('$' :: c2 :: rest2) = dollarFree (c2 :: rest2) := by
  conv_lhs => rw [dollarFree.eq_def]
  dsimp only
  rw [if_pos rfl]
  rw [if_neg hs]

/-- Unfolding of GetSubstitution on a non-dollar head. -/
theorem getSubstitution_cons_ne (m b a : Str) (c : Char) (rest : Str) (hc : ¬ (c = '$')) :
    getSubstitution m b a (c :: rest) = c :: getSubstitution m b a rest := by
  conv_lhs => rw [getSubstitution.eq_def]
  dsimp only
  rw [if_neg hc]

/-- Unfolding of GetSubstitution on a dollar followed by a non-special
character: the dollar stays literal. -/
theorem getSubstitution_dollar_ok (m b a : Str) (c2 : Char) (rest2 : Str)
    (h1 : ¬ (c2 = '$')) (h2 : ¬ (c2 = '&')) (h3 : ¬ (c2 = Char.ofNat 96))
    (h4 : ¬ (c2 = Char.ofNat 39)) :
    getSubstitution m b a ('$' :: c2 :: rest2) = '$' :: getSubstitution m b a (c2 :: rest2) := by
  conv_lhs => rw [getSubstitution.eq_def]
  dsimp only
  rw [if_pos rfl]
  rw [if_neg h1, if_neg h2, if_neg h3, if_neg h4]

/-- Replacement strings without dollar patterns pass through GetSubstitution
verbatim. -/
theorem getSubstitution_of_dollarFree (m b a : Str) :
    ∀ rep : Str, dollarFree rep = true → getSubstitution m b a rep = rep := by
  intro rep
  induction rep with
  | nil => intro _; rfl
  | cons c rest ih =>
    intro h
    by_cases hc : c = '$'
    · subst hc
      cases rest with
      | nil => rfl
      | cons c2 rest2 =>
        by_cases hs : (c2 = '$' || c2 = '&' || c2 = Char.ofNat 96 || c2 = Char.ofNat 39) = true
        · exfalso
          rw [show dollarFree ('$' :: c2 :: rest2) = false from by
            conv_lhs => rw [dollarFree.eq_def]
            dsimp only
            rw [if_pos rfl]
            rw [if_pos hs]] at h
          exact absurd h (by simp)
        · have hs1 : ¬ (c2 = '$') := fun hx => hs (by simp [hx])
          have hs2 : ¬ (c2 = '&') := fun hx => hs (by simp [hx])
          have hs3 : ¬ (c2 = Char.ofNat 96) := fun hx => hs (by simp [hx])
          have hs4 : ¬ (c2 = Char.ofNat 39) := fun hx => hs (by simp [hx])
          rw [dollarFree_dollar_ok c2 rest2 hs] at h
          rw [getSubstitution_dollar_ok m b a c2 rest2 hs1 hs2 hs3 hs4]
          rw [ih h]
    · rw [dollarFree_cons_ne c rest hc] at h
      rw [getSubstitution_cons_ne m b a c rest hc]
      rw [ih h]

/-- One directive occurrence inside a document, as the amended claim C4
quantifies over it: the matched directive text, its trimmed path, the
referenced file's contents, and the document text following it up to the
next directive. -/
structure IncPiece where
  matched : Str
  path : Str
  inc : Str
  after : Str
deriving DecidableEq, Repr

/-- Document text from a list of directive occurrences onwards, directives
unexpanded. -/
def assembleFrom : List IncPiece → Str
  | [] => []
  | q :: rest => q.matched ++ q.after ++ assembleFrom rest

/-- Document text from a list of directive occurrences onwards, every
directive replaced by its file's raw contents. -/
def spliceFrom : List IncPiece → Str
  | [] => []
  | q :: rest => q.inc ++ q.after ++ spliceFrom rest

/-- Each directive's first occurrence in the partially substituted document
is the intended one (the source replaces the first occurrence of the
matched text in the accumulated result, so an earlier stray copy of the
directive text would be hit instead). -/
def noEarlyMatch : Str → List IncPiece → Bool
  | _, [] => true
  | pfx, q :: rest =>
    if firstIdx (pfx ++ assembleFrom (q :: rest)) q.matched = some pfx.length
    then noEarlyMatch (pfx ++ q.inc ++ q.after) rest
    else false

/-- Fold of the include steps over a decomposed document: with every
referenced file readable, every file's contents free of dollar patterns and
every first occurrence the intended one, each directive is replaced by its
file's raw contents. -/
theorem fold_splice (fs : FS) (cfp : Str) :
    ∀ (ps : List IncPiece) (pfx : Str),
      (∀ q ∈ ps, fs.readF (pathResolve (posixDirname cfp) q.path) = some q.inc) →
      (∀ q ∈ ps, dollarFree q.inc = true) →
      noEarlyMatch pfx ps = true →
      (ps.map (fun q => (q.matched, q.path))).foldl (includeStep fs cfp)
        (pfx ++ assembleFrom ps) = pfx ++ spliceFrom ps := by
  intro ps
  induction ps with
  | nil => intro pfx _ _ _; simp [assembleFrom, spliceFrom]
  | cons q rest ih =>
    intro pfx hread hdollar hpos
    unfold noEarlyMatch at hpos
    split at hpos
    case isFalse => exact absurd hpos (by simp)
    case isTrue hidx =>
      rw [List.map_cons, List.foldl_cons]
      have hsplit : pfx ++ assembleFrom (q :: rest) =
          pfx ++ q.matched ++ (q.after ++ assembleFrom rest) := by
        simp [assembleFrom, List.append_assoc]
      have hstep : includeStep fs cfp (pfx ++ assembleFrom (q :: rest)) (q.matched, q.path) =
          (pfx ++ q.inc ++ q.after) ++ assembleFrom rest := by
        simp only [includeStep]
        rw [hread q (List.mem_cons_self q rest)]
        dsimp only
        rw [hsplit, replaceFirst_split pfx q.matched (q.after ++ assembleFrom rest) q.inc
          (hsplit ▸ hidx)]
        rw [getSubstitution_of_dollarFree _ _ _ _ (hdollar q (List.mem_cons_self q rest))]
        simp [List.append_assoc]
      rw [hstep]
      have hrest := ih (pfx ++ q.inc ++ q.after)
        (fun x hx => hread x (List.mem_cons_of_mem q hx))
        (fun x hx => hdollar x (List.mem_cons_of_mem q hx)) hpos
      rw [hrest]
      simp [spliceFrom, List.append_assoc]

/-- Claim C4, corrected.  The source substitutes a readable directive by
feeding the file's contents to the replace method as a string replacement,
which expands dollar patterns instead of inserting them literally; the
original raw-contents reading is refuted by the counterexample below.  The
amended claim: every directive (of arbitrarily many in a document) whose
referenced file is readable and whose contents carry no dollar pattern is
replaced by exactly those raw contents; and a single readable directive of
arbitrary contents is replaced by the GetSubstitution-processed contents. -/
theorem claim_C4_include_substitution :
    (∀ (fs : FS) (cfp b0 : Str) (ps : List IncPiece),
      findIncludes (b0 ++ assembleFrom ps) = ps.map (fun q => (q.matched, q.path)) →
      (∀ q ∈ ps, fs.readF (pathResolve (posixDirname cfp) q.path) = some q.inc) →
      (∀ q ∈ ps, dollarFree q.inc = true) →
      noEarlyMatch b0 ps = true →
      processIncludeDirectives fs (b0 ++ assembleFrom ps) cfp = b0 ++ spliceFrom ps) ∧
    (∀ (fs : FS) (content pre m p post inc cfp : Str),
      findIncludes content = [(m, p)] →
      content = pre ++ m ++ post →
      firstIdx content m = some pre.length →
      fs.readF (pathResolve (posixDirname cfp) p) = some inc →
      processIncludeDirectives fs content cfp =
        pre ++ getSubstitution m pre post inc ++ post) := by
  constructor
  · intro fs cfp b0 ps hfind hread hdollar hpos
    unfold processIncludeDirectives
    rw [hfind]
    exact fold_splice fs cfp ps b0 hread hdollar hpos
  · intro fs content pre m p post inc cfp hfind hsplit hidx hread
    unfold processIncludeDirectives
    rw [hfind, List.foldl_cons, List.foldl_nil]
    rw [show includeStep fs cfp content (m, p) = replaceFirst content m inc from by
      simp only [includeStep]
      rw [hread]]
    subst hsplit
    exact replaceFirst_split pre m post inc hidx

/-- Counterexample to claim C4 as stated: a readable snippet whose raw
contents are the two characters dollar-ampersand is not inserted raw — the
replace method expands the pattern to the matched directive, so the output
is the unchanged document and differs from the raw-contents splice. -/
theorem claim_C4_include_substitution_counterexample :
    processIncludeDirectives ⟨[(str "/content/docs/snippet.md", str "$&")]⟩
        (str "A\n<!-- INCLUDE snippet.md -->\nB") (str "/content/docs/page.md") =
      str "A\n<!-- INCLUDE snippet.md -->\nB" ∧
    processIncludeDirectives ⟨[(str "/content/docs/snippet.md", str "$&")]⟩
        (str "A\n<!-- INCLUDE snippet.md -->\nB") (str "/content/docs/page.md") ≠
      str "A\n" ++ str "$&" ++ str "\nB" := by
  decide

/-- Filesystem of the include example. -/
def includeFS : FS := ⟨[(str "/content/docs/snippet.md", str "X")]⟩

/-- Directive occurrence of the specification's concrete example. -/
def examplePiece : IncPiece :=
  ⟨str "<!-- INCLUDE snippet.md -->", str "snippet.md", str "X", str "\nB"⟩

/-- Witness for claim C4: the concrete A, X, B example through the
multi-directive part, and the dollar-ampersand snippet through the
GetSubstitution part. -/
theorem claim_C4_include_substitution_witness :
    processIncludeDirectives includeFS (str "A\n" ++ assembleFrom [examplePiece])
      (str "/content/docs/page.md") = str "A\n" ++ spliceFrom [examplePiece] ∧
    processIncludeDirectives ⟨[(str "/content/docs/snippet.md", str "$&")]⟩
        (str "A\n<!-- INCLUDE snippet.md -->\nB") (str "/content/docs/page.md") =
      str "A\n" ++ getSubstitution (str "<!-- INCLUDE snippet.md -->") (str "A\n")
        (str "\nB") (str "$&") ++ str "\nB" :=
  ⟨claim_C4_include_substitution.1 includeFS (str "/content/docs/page.md") (str "A\n")
    [examplePiece]
    (by decide) (by decide) (by decide) (by decide),
   claim_C4_include_substitution.2 ⟨[(str "/content/docs/snippet.md", str "$&")]⟩
    (str "A\n<!-- INCLUDE snippet.md -->\nB") (str "A\n")
    (str "<!-- INCLUDE snippet.md -->") (str "snippet.md") (str "\nB") (str "$&")
    (str "/content/docs/page.md")
    (by decide) (by decide) (by decide) (by decide)⟩

/-- Failing reads leave the accumulated result untouched across the whole
fold. -/
theorem foldl_includeStep_missing (fs : FS) (cfp : Str) :
    ∀ (l : List (Str × Str)) (acc : Str),
      (∀ mp ∈ l, fs.readF (pathResolve (posixDirname cfp) mp.2) = none) →
      l.foldl (includeStep fs cfp) acc = acc := by
  intro l
  induction l with
  | nil => intro acc _; rfl
  | cons mp rest ih =>
    intro acc h
    rw [List.foldl_cons]
    rw [show includeStep fs cfp acc mp = acc from by
      simp only [includeStep]
      rw [h mp (List.mem_cons_self mp rest)]]
    exact ih acc (fun x hx => h x (List.mem_cons_of_mem mp hx))

/-- Claim C5: when every directive's referenced file is missing or
unreadable, the resolver neither throws (it is total, the source's catch
block only logging a warning) nor drops surrounding text: the content comes
back identical, the directives left unexpanded — in particular the concrete
missing-snippet example keeps its A and B lines. -/
theorem claim_C5_include_failure_nonfatal (fs : FS) (content cfp : Str)
    (hmiss : ∀ mp ∈ findIncludes content,
      fs.readF (pathResolve (posixDirname cfp) mp.2) = none) :
    processIncludeDirectives fs content cfp = content ∧
    processIncludeDirectives ⟨[]⟩ (str "A\n<!-- INCLUDE snippet.md -->\nB")
        (str "/content/docs/page.md") = str "A\n<!-- INCLUDE snippet.md -->\nB" ∧
    List.IsInfix (str "A") (processIncludeDirectives ⟨[]⟩
      (str "A\n<!-- INCLUDE snippet.md -->\nB") (str "/content/docs/page.md")) ∧
    List.IsInfix (str "B") (processIncludeDirectives ⟨[]⟩
      (str "A\n<!-- INCLUDE snippet.md -->\nB") (str "/content/docs/page.md")) := by
  refine ⟨?_, by decide, by decide, by decide⟩
  unfold processIncludeDirectives
  exact foldl_includeStep_missing fs cfp (findIncludes content) content hmiss

/-- Witness for claim C5: the missing-snippet example evaluated through the
theorem. -/
theorem claim_C5_include_failure_nonfatal_witness :
    processIncludeDirectives ⟨[]⟩ (str "A\n<!-- INCLUDE snippet.md -->\nB")
      (str "/content/docs/page.md") = str "A\n<!-- INCLUDE snippet.md -->\nB" :=
  (claim_C5_include_failure_nonfatal ⟨[]⟩ (str "A\n<!-- INCLUDE snippet.md -->\nB")
    (str "/content/docs/page.md") (by decide)).1

/-! ## Claim C8: unknown slug yields an explicit no-document result -/

/-- Claim C8: for every locale and slug other than the changelog slug, when
none of the four candidate files exists under the locale root, getDoc
returns the explicit no-document result rather than an error. -/
theorem claim_C8_not_found_returns_none (fs : FS) (locale : Locale) (slug : List Str)
    (hch : slug ≠ [str "changelog"])
    (h1 : fs.existsF (pathJoin (pathJoin (docsRoot locale) (joinSegs '/' slug))
      (str "index.md")) = false)
    (h2 : fs.existsF (pathJoin (pathJoin (docsRoot locale) (joinSegs '/' slug))
      (str "index.mdx")) = false)
    (h3 : fs.existsF (pathJoin (docsRoot locale) (joinSegs '/' slug) ++ str ".md") = false)
    (h4 : fs.existsF (pathJoin (docsRoot locale) (joinSegs '/' slug) ++ str ".mdx") = false) :
    getDoc fs locale slug = .ok none := by
  have hres : resolveDocPath fs locale slug = none := by
    unfold resolveDocPath
    dsimp only
    rw [List.find?_cons_of_neg _ (by simpa using h1),
        List.find?_cons_of_neg _ (by simpa using h2),
        List.find?_cons_of_neg _ (by simpa using h3),
        List.find?_cons_of_neg _ (by simpa using h4)]
    rfl
  unfold getDoc
  rw [if_neg hch, hres]

/-- Witness for claim C8: an unknown slug on a small filesystem. -/
theorem claim_C8_not_found_returns_none_witness :
    getDoc ⟨[(str "/build/taffy-layout/docs/api/foo.md", str "# Foo\n\nBody")]⟩ .zh
      [str "nope"] = .ok none :=
  claim_C8_not_found_returns_none _ .zh [str "nope"]
    (by decide) (by decide) (by decide) (by decide) (by decide)

/-! ## Claim C1: locale fallback on the docs pages -/

/-- Claim C1: for a non-default locale and a slug whose document exists in
the default locale but not in the requested one, the locale docs page
renders the default-locale document and passes the missing-translation
notice to the shell, while the default-locale docs page for the same slug
always passes no notice. -/
theorem claim_C1_locale_fallback (fs : FS) (localeStr : Str) (locale : Locale)
    (slug : List Str) (d : DocData)
    (hloc : isLocaleOf localeStr = some locale)
    (hne : locale ≠ DEFAULT_LOCALE)
    (hnil : slug ≠ [])
    (hintro : slug ≠ [str "intro"])
    (hprimary : getDoc fs locale slug = .ok none)
    (hfallback : getDoc fs DEFAULT_LOCALE slug = .ok (some d)) :
    localePage fs localeStr slug =
      .ok (.render locale d (some (getUi locale).missingTranslation)) ∧
    defaultPage fs slug = .ok (.render DEFAULT_LOCALE d none) := by
  constructor
  · unfold localePage
    rw [hloc]
    dsimp only
    rw [if_neg hne, if_neg hintro, if_neg hnil]
    rw [hprimary, hfallback]
    dsimp only
    by_cases hapi : slug.head? = some (str "api")
    · rw [if_pos hapi]
      dsimp only
      rw [if_pos (Or.inl hapi)]
    · rw [if_neg hapi]
      dsimp only [Option.orElse]
      rw [if_pos (Or.inr ⟨rfl, by simp⟩)]
  · unfold defaultPage
    rw [if_neg hintro]
    dsimp only
    rw [if_neg hnil, hfallback]

/-- Filesystem of the fallback example: the document exists only in the
default locale. -/
def fallbackFS : FS := ⟨[(str "/build/taffy-layout/docs/api/foo.md", str "# Foo\n\nBody")]⟩

/-- Document data the fallback example resolves to. -/
def fooDoc : DocData :=
  { title := str "Foo", slug := [str "api", str "foo"], content := str "# Foo\n\nBody",
    data := {}, toc := [], isIndex := false }

/-- Witness for claim C1: the api, foo slug under the zh locale falls back
to the English document with the notice set, and under the default locale
renders it with no notice. -/
theorem claim_C1_locale_fallback_witness :
    localePage fallbackFS (str "zh") [str "api", str "foo"] =
      .ok (.render .zh fooDoc (some (getUi .zh).missingTranslation)) ∧
    defaultPage fallbackFS [str "api", str "foo"] = .ok (.render .en fooDoc none) :=
  claim_C1_locale_fallback fallbackFS (str "zh") .zh [str "api", str "foo"] fooDoc
    (by decide) (by decide) (by decide) (by decide) (by decide) (by decide)

end TaffyDocs
